import Mathlib

/-!
# A verification of the rust-cty value/type model

Shallow embedding of `src/lib.rs` of the `cty` crate: a dynamic-but-typed
value representation.  Rust's `Type` enum becomes the inductive `Ty`
(`Type` is reserved in Lean); `HashMap<String, _>` fields are embedded as
association lists, together with a key-uniqueness well-formedness predicate
capturing the states a Rust `HashMap` can actually be in, and the derived
`PartialEq` of `HashMap` (equal lengths, and every entry of the left map
found with an equal value in the right) becomes the corresponding
order-insensitive comparison on association lists.  The panicking
collection constructors `Value::list` / `Value::map` are embedded as
`Option`-returning functions (`none` = panic).
-/

/-- Rust `Type`: the closed algebra of value shapes (`src/lib.rs`).
`Object` carries a `HashMap<String, Type>`, embedded as an association
list of fields. -/
inductive Ty where
  | string
  | bool
  | number
  | list (t : Ty)
  | map (t : Ty)
  | set (t : Ty)
  | tuple (ts : List Ty)
  | object (fields : List (String × Ty))
  | any

/-- Rust `HashMap::get` on the embedded association list: the value at the
first entry whose key equals `k`. -/
def lookupTy (k : String) : List (String × Ty) → Option Ty
  | [] => none
  | (k2, v) :: rest => if k2 == k then some v else lookupTy k rest

mutual

/-- Rust's derived `PartialEq for Type`: structural, recursive equality.
`Box<Type>` compares the pointees, `Vec<Type>` compares element-wise and
`HashMap<String, Type>` compares as an unordered map. -/
def Ty.beq : Ty → Ty → Bool
  | .string, .string => true
  | .bool, .bool => true
  | .number, .number => true
  | .list a, .list b => Ty.beq a b
  | .map a, .map b => Ty.beq a b
  | .set a, .set b => Ty.beq a b
  | .tuple as, .tuple bs => Ty.tupleBeq as bs
  | .object as, .object bs => (as.length == bs.length) && Ty.objSub as bs
  | .any, .any => true
  | _, _ => false

/-- Element-wise equality of `Vec<Type>` (the `Tuple` parameter). -/
def Ty.tupleBeq : List Ty → List Ty → Bool
  | [], [] => true
  | a :: as, b :: bs => Ty.beq a b && Ty.tupleBeq as bs
  | _, _ => false

/-- One half of `HashMap<String, Type>` equality: every entry of the first
map is present in the second with an equal value. -/
def Ty.objSub : List (String × Ty) → List (String × Ty) → Bool
  | [], _ => true
  | (k, v) :: rest, bs =>
    (match lookupTy k bs with
     | some w => Ty.beq v w
     | none => false) && Ty.objSub rest bs

end

/-- The keys of the association list are pairwise distinct — the invariant
every Rust `HashMap` maintains. -/
def nodupKeysB : List (String × Ty) → Bool
  | [] => true
  | (k, _) :: rest => rest.all (fun p => !(p.1 == k)) && nodupKeysB rest

mutual

/-- Well-formedness of an embedded `Ty`: every association list standing
in for a `HashMap<String, Type>` has pairwise distinct keys.  Every `Type`
reachable in the Rust program satisfies this; it cuts away the list states
a `HashMap` cannot represent. -/
def Ty.wf : Ty → Bool
  | .string => true
  | .bool => true
  | .number => true
  | .any => true
  | .list t => Ty.wf t
  | .map t => Ty.wf t
  | .set t => Ty.wf t
  | .tuple ts => Ty.wfList ts
  | .object fs => nodupKeysB fs && Ty.wfFields fs

/-- All members of a `Vec<Type>` are well-formed. -/
def Ty.wfList : List Ty → Bool
  | [] => true
  | t :: ts => Ty.wf t && Ty.wfList ts

/-- All field types of an `Object` are well-formed. -/
def Ty.wfFields : List (String × Ty) → Bool
  | [] => true
  | (_, v) :: rest => Ty.wf v && Ty.wfFields rest

end

/-- Rust `ValueInner`: the concrete payload of a value.  `Sequence` is
`Vec<ValueInner>`, `Mapping` is `HashMap<String, ValueInner>` embedded as
an association list. -/
inductive ValueInner where
  | string (s : String)
  | bool (b : Bool)
  | sequence (vs : List ValueInner)
  | mapping (m : List (String × ValueInner))
  | unknown
  | null

/-- The hand-written `impl PartialEq for ValueInner`: `Unknown` on either
side is never equal; `Null`, `Bool` and `String` compare by value; every
other combination (including `Sequence`/`Sequence` and
`Mapping`/`Mapping`) is unequal. -/
def ValueInner.beq : ValueInner → ValueInner → Bool
  | .unknown, _ => false
  | _, .unknown => false
  | .null, .null => true
  | .bool a, .bool b => a == b
  | .string a, .string b => a == b
  | _, _ => false

/-- Rust `Value`: a declared type paired with a payload. -/
structure Value where
  ty : Ty
  v : ValueInner

/-- The derived `PartialEq for Value`: both fields must compare equal
(`Type` by its derived structural equality, `ValueInner` by the
hand-written instance above). -/
def Value.beq (a b : Value) : Bool :=
  Ty.beq a.ty b.ty && ValueInner.beq a.v b.v

/-- Rust `Value::type_`: the declared type of a value. -/
def Value.type_ (a : Value) : Ty :=
  a.ty

/-- Modelled from the spec: the single composition step of Unicode NFC
normalization, which the source delegates to the external
`unicode_normalization` crate (`v.nfc()`), code that is not part of this
repository.  The model composes a base letter `a`/`e`/`o` with a
following U+0301 COMBINING ACUTE ACCENT into the precomposed character —
a representative fragment of canonical composition. -/
def composeBase (b : Char) : Option Char :=
  if b = 'a' then some '\u00E1'
  else if b = 'e' then some '\u00E9'
  else if b = 'o' then some '\u00F3'
  else none

/-- Compose a base character with a following combining character, when
the pair has a precomposed form in the modelled fragment. -/
def compose (b c : Char) : Option Char :=
  if c = '\u0301' then composeBase b else none

/-- Prepend `c` to an already-normalized sequence, composing it with the
first character when the pair has a precomposed form. -/
def nfcStep (c : Char) : List Char → List Char
  | [] => [c]
  | d :: ds =>
    match compose c d with
    | some p => p :: ds
    | none => c :: d :: ds

/-- Modelled from the spec: NFC normalization of a character sequence
(the external `unicode_normalization` crate's `nfc()` iterator, which is
not code of this repository).  Normalizes the tail, then composes the
head with the first character of the normalized tail when possible. -/
def nfcChars : List Char → List Char
  | [] => []
  | c :: rest => nfcStep c (nfcChars rest)

/-- Modelled from the spec: NFC normalization of a string. -/
def nfc (s : String) : String :=
  ⟨nfcChars s.data⟩

/-- Rust `Value::null`: a `Null` payload carrying the given declared type. -/
def Value.null (ty : Ty) : Value :=
  ⟨ty, ValueInner.null⟩

/-- Rust `Value::unknown`: an `Unknown` payload carrying the given declared type. -/
def Value.unknown (ty : Ty) : Value :=
  ⟨ty, ValueInner.unknown⟩

/-- Rust `Value::dynamic`: an `Unknown` payload of type `Any`. -/
def Value.dynamic : Value :=
  ⟨Ty.any, ValueInner.unknown⟩

/-- Rust `Value::string`: stores the NFC normalization of the input text. -/
def Value.string (s : String) : Value :=
  ⟨Ty.string, ValueInner.string (nfc s)⟩

/-- Rust `Value::bool`: a trivial wrap. -/
def Value.bool (b : Bool) : Value :=
  ⟨Ty.bool, ValueInner.bool b⟩

/-- Rust `Value::list_raw`: wraps an already-built payload sequence.  Note the
source stores the constructor argument `ty` itself as the value's type. -/
def Value.list_raw (ty : Ty) (vals : List ValueInner) : Value :=
  ⟨ty, ValueInner.sequence vals⟩

/-- Rust `Value::map_raw`: wraps an already-built payload mapping.  As with
`list_raw`, the constructor argument `ty` itself becomes the value's type. -/
def Value.map_raw (ty : Ty) (vals : List (String × ValueInner)) : Value :=
  ⟨ty, ValueInner.mapping vals⟩

/-- The validating loop of `Value::list`: each element's declared type
must equal `ty` (Rust `ev.type_() != &ty` panics); on success the
elements' payloads are collected in input order.  `none` models the
panic. -/
def Value.listGo (ty : Ty) : List Value → Option (List ValueInner)
  | [] => some []
  | ev :: rest =>
    if Ty.beq ev.type_ ty then (Value.listGo ty rest).map (fun vs => ev.v :: vs)
    else none

/-- Rust `Value::list`: validate all elements against `ty`, then wrap the
collected payloads with `list_raw`. -/
def Value.list (ty : Ty) (vals : List Value) : Option Value :=
  (Value.listGo ty vals).map (Value.list_raw ty)

/-- The validating loop of `Value::map`: identical per-entry validation,
collecting name → payload pairs.  `none` models the panic. -/
def Value.mapGo (ty : Ty) : List (String × Value) → Option (List (String × ValueInner))
  | [] => some []
  | (k, ev) :: rest =>
    if Ty.beq ev.type_ ty then (Value.mapGo ty rest).map (fun m => (k, ev.v) :: m)
    else none

/-- Rust `Value::map`: validate all entries against `ty`, then wrap the
collected pairs with `map_raw`. -/
def Value.map (ty : Ty) (vals : List (String × Value)) : Option Value :=
  (Value.mapGo ty vals).map (Value.map_raw ty)

/-! ## Lemmas about the embedded `HashMap` lookup and comparison -/

theorem lookupTy_mem {k : String} {w : Ty} :
    ∀ {l : List (String × Ty)}, lookupTy k l = some w → (k, w) ∈ l := by
  intro l
  induction l with
  | nil => intro h; simp [lookupTy] at h
  | cons p rest ih =>
    intro h
    obtain ⟨k2, v⟩ := p
    simp only [lookupTy] at h
    split at h
    · next hk =>
      obtain rfl := Option.some.inj h
      have hk2 : k2 = k := by simpa using hk
      subst hk2
      exact List.mem_cons_self _ _
    · exact List.mem_cons_of_mem _ (ih h)

theorem mem_lookupTy {k : String} {w : Ty} :
    ∀ {l : List (String × Ty)}, nodupKeysB l = true → (k, w) ∈ l →
      lookupTy k l = some w := by
  intro l
  induction l with
  | nil => intro _ hm; simp at hm
  | cons p rest ih =>
    intro hnd hm
    obtain ⟨k2, v⟩ := p
    simp only [nodupKeysB, Bool.and_eq_true, List.all_eq_true] at hnd
    obtain ⟨hall, hnd2⟩ := hnd
    rcases List.mem_cons.mp hm with heq | hmem
    · injection heq with h1 h2
      subst h1; subst h2
      simp [lookupTy]
    · have hne : ¬(k2 == k) = true := by
        intro hk
        have hk2 : k2 = k := by simpa using hk
        subst hk2
        have := hall (k2, w) hmem
        simp at this
      simp only [lookupTy, if_neg hne]
      exact ih hnd2 hmem

theorem objSub_iff {as bs : List (String × Ty)} :
    Ty.objSub as bs = true ↔
      ∀ p ∈ as, ∃ w, lookupTy p.1 bs = some w ∧ Ty.beq p.2 w = true := by
  induction as with
  | nil => simp [Ty.objSub]
  | cons p rest ih =>
    obtain ⟨k, v⟩ := p
    simp only [Ty.objSub, Bool.and_eq_true, ih, List.mem_cons]
    constructor
    · rintro ⟨h1, h2⟩ q hq
      rcases hq with rfl | hq
      · rcases hlk : lookupTy k bs with _ | w
        · rw [hlk] at h1; simp at h1
        · rw [hlk] at h1; exact ⟨w, rfl, h1⟩
      · exact h2 q hq
    · intro h
      refine ⟨?_, fun q hq => h q (Or.inr hq)⟩
      obtain ⟨w, hw, hbeq⟩ := h (k, v) (Or.inl rfl)
      rw [hw]
      exact hbeq

theorem tupleBeq_refl {ts : List Ty} (h : ∀ t ∈ ts, Ty.beq t t = true) :
    Ty.tupleBeq ts ts = true := by
  induction ts with
  | nil => rfl
  | cons t ts ih =>
    simp only [Ty.tupleBeq, Bool.and_eq_true]
    exact ⟨h t (List.mem_cons_self _ _), ih fun x hx => h x (List.mem_cons_of_mem _ hx)⟩

theorem wfList_mem {ts : List Ty} (h : Ty.wfList ts = true) {t : Ty} (ht : t ∈ ts) :
    Ty.wf t = true := by
  induction ts with
  | nil => simp at ht
  | cons a ts ih =>
    simp only [Ty.wfList, Bool.and_eq_true] at h
    rcases List.mem_cons.mp ht with rfl | ht2
    · exact h.1
    · exact ih h.2 ht2

theorem wfFields_mem {fs : List (String × Ty)} (h : Ty.wfFields fs = true)
    {k : String} {v : Ty} (hv : (k, v) ∈ fs) : Ty.wf v = true := by
  induction fs with
  | nil => simp at hv
  | cons p rest ih =>
    obtain ⟨k2, v2⟩ := p
    simp only [Ty.wfFields, Bool.and_eq_true] at h
    rcases List.mem_cons.mp hv with heq | hv2
    · injection heq with h1 h2
      subst h2
      exact h.1
    · exact ih h.2 hv2

theorem nodupKeysB_iff {l : List (String × Ty)} :
    nodupKeysB l = true ↔ (l.map Prod.fst).Nodup := by
  induction l with
  | nil => simp [nodupKeysB]
  | cons p rest ih =>
    obtain ⟨k, v⟩ := p
    simp only [nodupKeysB, Bool.and_eq_true, List.all_eq_true, List.map_cons,
      List.nodup_cons, ih, List.mem_map]
    constructor
    · rintro ⟨hall, hnd⟩
      refine ⟨?_, hnd⟩
      rintro ⟨q, hq, hq1⟩
      have := hall q hq
      rw [hq1] at this
      simp at this
    · rintro ⟨hk, hnd⟩
      refine ⟨?_, hnd⟩
      intro q hq
      have hne : ¬q.1 = k := fun h => hk ⟨q, hq, h⟩
      simpa using hne

/-- Reflexivity of the embedded `Type` equality on well-formed types,
proved by strong induction on the size of the type. -/
theorem Ty.beq_refl_sized :
    ∀ (n : Nat) (t : Ty), sizeOf t ≤ n → Ty.wf t = true → Ty.beq t t = true := by
  intro n
  induction n with
  | zero =>
    intro t ht _
    cases t <;> simp at ht
  | succ n ih =>
    intro t ht hwf
    cases t with
    | string => rfl
    | bool => rfl
    | number => rfl
    | any => rfl
    | list a =>
      simp only [Ty.wf] at hwf
      simp only [Ty.beq]
      refine ih a ?_ hwf
      simp at ht; omega
    | map a =>
      simp only [Ty.wf] at hwf
      simp only [Ty.beq]
      refine ih a ?_ hwf
      simp at ht; omega
    | set a =>
      simp only [Ty.wf] at hwf
      simp only [Ty.beq]
      refine ih a ?_ hwf
      simp at ht; omega
    | tuple ts =>
      simp only [Ty.wf] at hwf
      simp only [Ty.beq]
      apply tupleBeq_refl
      intro x hx
      have hx1 : sizeOf x < sizeOf ts := List.sizeOf_lt_of_mem hx
      have hts : 1 + sizeOf ts ≤ n + 1 := by simpa using ht
      exact ih x (by omega) (wfList_mem hwf hx)
    | object fs =>
      simp only [Ty.wf, Bool.and_eq_true] at hwf
      obtain ⟨hnd, hwff⟩ := hwf
      simp only [Ty.beq, Bool.and_eq_true]
      refine ⟨by simp, ?_⟩
      rw [objSub_iff]
      intro p hp
      obtain ⟨k, v⟩ := p
      refine ⟨v, mem_lookupTy hnd hp, ?_⟩
      have h1 : sizeOf (k, v) < sizeOf fs := List.sizeOf_lt_of_mem hp
      have h2 : 1 + sizeOf fs ≤ n + 1 := by simpa using ht
      have h3 : sizeOf v < sizeOf (k, v) := by simp
      exact ih v (by omega) (wfFields_mem hwff hp)

/-- Reflexivity of `Type` equality on well-formed types. -/
theorem Ty.beq_refl {t : Ty} (h : Ty.wf t = true) : Ty.beq t t = true :=
  Ty.beq_refl_sized (sizeOf t) t le_rfl h

/-! ## Symmetry of the embedded equalities -/

theorem tupleBeq_symm :
    ∀ {as bs : List Ty},
      (∀ x ∈ as, ∀ y ∈ bs, Ty.beq x y = Ty.beq y x) →
      Ty.tupleBeq as bs = Ty.tupleBeq bs as := by
  intro as
  induction as with
  | nil => intro bs _; cases bs <;> rfl
  | cons a as ih =>
    intro bs h
    cases bs with
    | nil => rfl
    | cons b bs =>
      simp only [Ty.tupleBeq]
      rw [h a (List.mem_cons_self _ _) b (List.mem_cons_self _ _),
        ih fun x hx y hy =>
          h x (List.mem_cons_of_mem _ hx) y (List.mem_cons_of_mem _ hy)]

/-- One direction of the symmetry of `HashMap` equality on association
lists with distinct keys: if every entry of `as` occurs (up to `Ty.beq`)
in `bs` and the lists have equal length, then every entry of `bs` occurs
in `as`. -/
theorem objSub_flip {as bs : List (String × Ty)}
    (hlen : as.length = bs.length)
    (hndas : nodupKeysB as = true) (hndbs : nodupKeysB bs = true)
    (hsym : ∀ v w : Ty, (∃ k, (k, v) ∈ as) → (∃ k, (k, w) ∈ bs) →
      Ty.beq v w = Ty.beq w v)
    (h : Ty.objSub as bs = true) : Ty.objSub bs as = true := by
  rw [objSub_iff] at h ⊢
  have hndA : (as.map Prod.fst).Nodup := nodupKeysB_iff.mp hndas
  have hndB : (bs.map Prod.fst).Nodup := nodupKeysB_iff.mp hndbs
  have hsub : ∀ k, k ∈ as.map Prod.fst → k ∈ bs.map Prod.fst := by
    intro k hk
    obtain ⟨p, hp, hp1⟩ := List.mem_map.mp hk
    obtain ⟨w, hw, -⟩ := h p hp
    subst hp1
    exact List.mem_map.mpr ⟨(p.1, w), lookupTy_mem hw, rfl⟩
  have hsub2 : ∀ k, k ∈ bs.map Prod.fst → k ∈ as.map Prod.fst := by
    have h1 : (as.map Prod.fst).toFinset ⊆ (bs.map Prod.fst).toFinset := by
      intro k hk
      exact List.mem_toFinset.mpr (hsub k (List.mem_toFinset.mp hk))
    have hcard : (bs.map Prod.fst).toFinset.card ≤ (as.map Prod.fst).toFinset.card := by
      rw [List.toFinset_card_of_nodup hndA, List.toFinset_card_of_nodup hndB]
      simp [hlen]
    have heq := Finset.eq_of_subset_of_card_le h1 hcard
    intro k hk
    exact List.mem_toFinset.mp (heq ▸ List.mem_toFinset.mpr hk)
  intro q hq
  obtain ⟨k, w⟩ := q
  have hkA : k ∈ as.map Prod.fst :=
    hsub2 k (List.mem_map.mpr ⟨(k, w), hq, rfl⟩)
  obtain ⟨p, hp, hp1⟩ := List.mem_map.mp hkA
  obtain ⟨k2, v⟩ := p
  obtain rfl : k2 = k := hp1
  refine ⟨v, mem_lookupTy hndas hp, ?_⟩
  obtain ⟨w2, hw2, hbeq⟩ := h (k2, v) hp
  have hlk : lookupTy k2 bs = some w := mem_lookupTy hndbs hq
  rw [hlk] at hw2
  have hww : w2 = w := Option.some.inj hw2.symm
  rw [hww] at hbeq
  rw [← hsym v w ⟨k2, hp⟩ ⟨k2, hq⟩]
  exact hbeq

/-- Symmetry of the embedded `Type` equality on well-formed types, by
strong induction on the combined size of the two types. -/
theorem Ty.beq_symm_sized :
    ∀ (n : Nat) (a b : Ty), sizeOf a + sizeOf b ≤ n →
      Ty.wf a = true → Ty.wf b = true → Ty.beq a b = Ty.beq b a := by
  intro n
  induction n with
  | zero =>
    intro a b h _ _
    cases a <;> simp at h
  | succ n ih =>
    intro a b hsz hwa hwb
    cases a with
    | string => cases b <;> rfl
    | bool => cases b <;> rfl
    | number => cases b <;> rfl
    | any => cases b <;> rfl
    | list x =>
      cases b <;> try rfl
      rename_i y
      simp only [Ty.wf] at hwa hwb
      simp only [Ty.beq]
      refine ih x y ?_ hwa hwb
      simp at hsz; omega
    | map x =>
      cases b <;> try rfl
      rename_i y
      simp only [Ty.wf] at hwa hwb
      simp only [Ty.beq]
      refine ih x y ?_ hwa hwb
      simp at hsz; omega
    | set x =>
      cases b <;> try rfl
      rename_i y
      simp only [Ty.wf] at hwa hwb
      simp only [Ty.beq]
      refine ih x y ?_ hwa hwb
      simp at hsz; omega
    | tuple ts =>
      cases b <;> try rfl
      rename_i bs
      simp only [Ty.wf] at hwa hwb
      simp only [Ty.beq]
      apply tupleBeq_symm
      intro x hx y hy
      have hx1 : sizeOf x < sizeOf ts := List.sizeOf_lt_of_mem hx
      have hy1 : sizeOf y < sizeOf bs := List.sizeOf_lt_of_mem hy
      have hsz2 : 1 + sizeOf ts + (1 + sizeOf bs) ≤ n + 1 := by simpa using hsz
      exact ih x y (by omega) (wfList_mem hwa hx) (wfList_mem hwb hy)
    | object fs =>
      cases b <;> try rfl
      rename_i gs
      simp only [Ty.wf, Bool.and_eq_true] at hwa hwb
      obtain ⟨hndf, hwff⟩ := hwa
      obtain ⟨hndg, hwfg⟩ := hwb
      simp only [Ty.beq]
      have hsymvw : ∀ v w : Ty, (∃ k, (k, v) ∈ fs) → (∃ k, (k, w) ∈ gs) →
          Ty.beq v w = Ty.beq w v := by
        rintro v w ⟨k1, hk1⟩ ⟨k2, hk2⟩
        have h1 : sizeOf (k1, v) < sizeOf fs := List.sizeOf_lt_of_mem hk1
        have h2 : sizeOf (k2, w) < sizeOf gs := List.sizeOf_lt_of_mem hk2
        have h3 : sizeOf v < sizeOf (k1, v) := by simp
        have h4 : sizeOf w < sizeOf (k2, w) := by simp
        have hsz2 : 1 + sizeOf fs + (1 + sizeOf gs) ≤ n + 1 := by simpa using hsz
        exact ih v w (by omega) (wfFields_mem hwff hk1) (wfFields_mem hwfg hk2)
      by_cases hlen : fs.length = gs.length
      · have e1 : (fs.length == gs.length) = true := by simpa using hlen
        have e2 : (gs.length == fs.length) = true := by simpa using hlen.symm
        rw [e1, e2, Bool.true_and, Bool.true_and]
        cases hfg : Ty.objSub fs gs with
        | true =>
          rw [objSub_flip hlen hndf hndg hsymvw hfg]
        | false =>
          cases hgf : Ty.objSub gs fs with
          | true =>
            have := objSub_flip hlen.symm hndg hndf
              (fun v w h1 h2 => (hsymvw w v h2 h1).symm) hgf
            rw [this] at hfg
            exact hfg.symm
          | false => rfl
      · have e1 : (fs.length == gs.length) = false := by simpa using hlen
        have e2 : (gs.length == fs.length) = false := by
          simpa using fun h => hlen h.symm
        rw [e1, e2, Bool.false_and, Bool.false_and]

/-- Symmetry of `Type` equality on well-formed types. -/
theorem Ty.beq_symm {a b : Ty} (ha : Ty.wf a = true) (hb : Ty.wf b = true) :
    Ty.beq a b = Ty.beq b a :=
  Ty.beq_symm_sized (sizeOf a + sizeOf b) a b le_rfl ha hb

/-- The hand-written payload equality is symmetric (unconditionally). -/
theorem innerBeq_symm (a b : ValueInner) :
    ValueInner.beq a b = ValueInner.beq b a := by
  cases a <;> cases b <;> try rfl
  · rename_i x y
    simp only [ValueInner.beq]
    exact Bool.beq_comm
  · rename_i x y
    simp only [ValueInner.beq]
    cases x <;> cases y <;> rfl

/-! ## Idempotence of the modelled NFC normalization -/

/-- A character sequence with no adjacent composable pair — already in
composed (NFC) form for the modelled fragment. -/
def normed : List Char → Bool
  | [] => true
  | [_] => true
  | a :: b :: rest => (compose a b).isNone && normed (b :: rest)

theorem composeBase_some {b p : Char} (h : composeBase b = some p) :
    p = 'á' ∨ p = 'é' ∨ p = 'ó' := by
  unfold composeBase at h
  split at h
  · exact Or.inl (Option.some.inj h).symm
  split at h
  · exact Or.inr (Or.inl (Option.some.inj h).symm)
  split at h
  · exact Or.inr (Or.inr (Option.some.inj h).symm)
  · cases h

/-- A precomposed character produced by `compose` is never itself a base
that composes further: composition cannot cascade. -/
theorem compose_composite_left {x y p : Char} (h : compose x y = some p)
    (z : Char) : compose p z = none := by
  unfold compose at h
  split at h
  · rcases composeBase_some h with h1 | h1 | h1 <;> subst h1 <;>
      (unfold compose; split
       · decide
       · rfl)
  · cases h

theorem normed_tail {a : Char} {l : List Char} (h : normed (a :: l) = true) :
    normed l = true := by
  cases l with
  | nil => rfl
  | cons b rest =>
    simp only [normed, Bool.and_eq_true] at h
    exact h.2

theorem nfcStep_some {c d p : Char} {ds : List Char} (h : compose c d = some p) :
    nfcStep c (d :: ds) = p :: ds := by
  simp only [nfcStep]
  rw [h]

theorem nfcStep_none {c d : Char} {ds : List Char} (h : compose c d = none) :
    nfcStep c (d :: ds) = c :: d :: ds := by
  simp only [nfcStep]
  rw [h]

/-- The output of the modelled normalization has no composable adjacent
pair left. -/
theorem nfcChars_normed : ∀ l : List Char, normed (nfcChars l) = true := by
  intro l
  induction l with
  | nil => rfl
  | cons c rest ih =>
    simp only [nfcChars]
    rcases hrest : nfcChars rest with _ | ⟨d, ds⟩
    · rfl
    · rw [hrest] at ih
      rcases hc : compose c d with _ | p
      · rw [nfcStep_none hc]
        simp only [normed, Bool.and_eq_true]
        exact ⟨by simp [hc], ih⟩
      · rw [nfcStep_some hc]
        cases ds with
        | nil => rfl
        | cons e es =>
          simp only [normed, Bool.and_eq_true]
          refine ⟨by simp [compose_composite_left hc e], ?_⟩
          exact normed_tail ih

/-- Normalization fixes already-normalized sequences. -/
theorem nfcChars_of_normed : ∀ {l : List Char}, normed l = true → nfcChars l = l := by
  intro l
  induction l with
  | nil => intro _; rfl
  | cons c rest ih =>
    intro h
    cases rest with
    | nil => rfl
    | cons d ds =>
      simp only [normed, Bool.and_eq_true] at h
      obtain ⟨hcd, hrest⟩ := h
      have hc : compose c d = none := Option.isNone_iff_eq_none.mp hcd
      have hstep : nfcChars (c :: d :: ds) = nfcStep c (nfcChars (d :: ds)) := rfl
      rw [hstep, ih hrest, nfcStep_none hc]

/-- Idempotence of the modelled NFC normalization on character lists. -/
theorem nfcChars_idem (l : List Char) : nfcChars (nfcChars l) = nfcChars l :=
  nfcChars_of_normed (nfcChars_normed l)

/-- Idempotence of the modelled NFC normalization on strings. -/
theorem nfc_idem (s : String) : nfc (nfc s) = nfc s := by
  unfold nfc
  exact congrArg String.mk (nfcChars_idem s.data)

/-! ## Lemmas about the validating collection constructors -/

theorem listGo_eq_none_iff {ty : Ty} {vals : List Value} :
    Value.listGo ty vals = none ↔ ∃ ev ∈ vals, Ty.beq ev.type_ ty = false := by
  induction vals with
  | nil => simp [Value.listGo]
  | cons ev rest ih =>
    simp only [Value.listGo]
    by_cases h : Ty.beq ev.type_ ty = true
    · rw [if_pos h, Option.map_eq_none', ih]
      constructor
      · rintro ⟨x, hx, hfx⟩
        exact ⟨x, List.mem_cons_of_mem _ hx, hfx⟩
      · rintro ⟨x, hx, hfx⟩
        rcases List.mem_cons.mp hx with rfl | hx2
        · rw [h] at hfx; cases hfx
        · exact ⟨x, hx2, hfx⟩
    · rw [if_neg h]
      constructor
      · intro _
        exact ⟨ev, List.mem_cons_self _ _, by simpa using h⟩
      · intro _; rfl

theorem listGo_eq_some {ty : Ty} :
    ∀ {vals : List Value} {ps : List ValueInner},
      Value.listGo ty vals = some ps → ps = vals.map Value.v := by
  intro vals
  induction vals with
  | nil =>
    intro ps h
    simp only [Value.listGo] at h
    exact (Option.some.inj h).symm
  | cons ev rest ih =>
    intro ps h
    simp only [Value.listGo] at h
    split at h
    · rcases hrec : Value.listGo ty rest with _ | qs
      · rw [hrec] at h; cases h
      · rw [hrec] at h
        simp only [Option.map_some'] at h
        obtain rfl := (Option.some.inj h).symm
        simp only [List.map_cons]
        rw [ih hrec]
    · cases h

/-! ## Discriminators used to state cross-variant properties -/

/-- The payload variant of a `ValueInner`, as a plain index. -/
def ValueInner.ctorIdx : ValueInner → Nat
  | .string _ => 0
  | .bool _ => 1
  | .sequence _ => 2
  | .mapping _ => 3
  | .unknown => 4
  | .null => 5

/-- The variant of a `Ty`, as a plain index. -/
def Ty.ctorIdx : Ty → Nat
  | .string => 0
  | .bool => 1
  | .number => 2
  | .list _ => 3
  | .map _ => 4
  | .set _ => 5
  | .tuple _ => 6
  | .object _ => 7
  | .any => 8

/-! ## The claims -/

/-- C1: the claim fails on the source, which contradicts its own model.
`Value::list` (resp. `Value::map`) called with element type `Bool` and
elements all of declared type `Bool` succeeds, but the constructed value's
declared type (`type_`) is `Bool` itself — not `List(Bool)` (resp.
`Map(Bool)`) as the claim states: `list_raw`/`map_raw` store the element
type argument itself as the value's type. -/
theorem C1_collection_declared_type_eval :
    (Value.list Ty.bool [Value.bool true]).map Value.type_ = some Ty.bool
    ∧ Ty.bool ≠ Ty.list Ty.bool
    ∧ (Value.map Ty.bool [("x", Value.bool true)]).map Value.type_ = some Ty.bool
    ∧ Ty.bool ≠ Ty.map Ty.bool :=
  ⟨rfl, fun h => Ty.noConfusion h, rfl, fun h => Ty.noConfusion h⟩

/-- C2: inputs with the same NFC normalization yield byte-identical stored
payloads and `Value`s that compare equal; in particular `string(s)` equals
`string(nfc(s))` for every text `s`. -/
theorem C2_string_nfc_normalized :
    (∀ a b : String, nfc a = nfc b →
      (Value.string a).v = (Value.string b).v
      ∧ Value.beq (Value.string a) (Value.string b) = true)
    ∧ ∀ s : String, Value.beq (Value.string s) (Value.string (nfc s)) = true := by
  constructor
  · intro a b h
    refine ⟨by simp [Value.string, h], ?_⟩
    simp [Value.beq, Value.string, ValueInner.beq, Ty.beq, h]
  · intro s
    simp [Value.beq, Value.string, ValueInner.beq, Ty.beq, nfc_idem]

/-- C2 witness: the decomposed spelling `e` + U+0301 and the precomposed
`é` normalize identically, so their `Value`s coincide. -/
theorem C2_string_nfc_normalized_witness :
    (Value.string "é").v = (Value.string "é").v
    ∧ Value.beq (Value.string "é") (Value.string "é") = true :=
  C2_string_nfc_normalized.1 "é" "é" (by decide)

/-- C3 counterexample: a `Sequence`-payload value is also unequal to
itself, so equality is *not* non-reflexive exactly on `Unknown`-payload
values. -/
theorem C3_nonreflexive_beyond_unknown_cex :
    Value.beq (Value.list_raw Ty.bool []) (Value.list_raw Ty.bool []) = false
    ∧ (Value.list_raw Ty.bool []).v ≠ ValueInner.unknown :=
  ⟨rfl, fun h => ValueInner.noConfusion h⟩

/-- C3 (amended): `unknown(t) == unknown(t)` is false for every `t`, and a
value with `Unknown` payload is never equal to any value; however equality
is non-reflexive exactly on values whose payload is `Unknown`, `Sequence`
or `Mapping` (for well-formed declared types), not on `Unknown` alone. -/
theorem C3_unknown_never_equal_amended :
    (∀ t : Ty, Value.beq (Value.unknown t) (Value.unknown t) = false)
    ∧ (∀ a b : Value, a.v = ValueInner.unknown ∨ b.v = ValueInner.unknown →
        Value.beq a b = false)
    ∧ (∀ a : Value, Ty.wf a.ty = true →
        (Value.beq a a = false ↔
          a.v = ValueInner.unknown
          ∨ (∃ xs, a.v = ValueInner.sequence xs)
          ∨ (∃ m, a.v = ValueInner.mapping m))) := by
  refine ⟨?_, ?_, ?_⟩
  · intro t
    simp [Value.beq, Value.unknown, ValueInner.beq]
  · intro a b h
    have hf : ValueInner.beq a.v b.v = false := by
      rcases h with h | h
      · rw [h]; cases b.v <;> rfl
      · rw [h]; cases a.v <;> rfl
    simp [Value.beq, hf]
  · intro a hwf
    have ht := Ty.beq_refl hwf
    obtain ⟨ty, v⟩ := a
    simp only [Value.beq] at *
    rw [ht, Bool.true_and]
    cases v <;> simp [ValueInner.beq]

/-- C3 witness: the amended statement at concrete inputs — an unknown
`String` value, an unknown-vs-bool pair, and an empty-sequence value. -/
theorem C3_unknown_never_equal_amended_witness :
    Value.beq (Value.unknown Ty.string) (Value.unknown Ty.string) = false
    ∧ Value.beq (Value.bool true) (Value.unknown Ty.bool) = false
    ∧ Value.beq (Value.list_raw Ty.number []) (Value.list_raw Ty.number []) = false := by
  refine ⟨C3_unknown_never_equal_amended.1 Ty.string,
    C3_unknown_never_equal_amended.2.1 (Value.bool true) (Value.unknown Ty.bool)
      (Or.inr rfl), ?_⟩
  exact (C3_unknown_never_equal_amended.2.2 (Value.list_raw Ty.number [])
    (by decide)).mpr (Or.inr (Or.inl ⟨[], rfl⟩))

/-- C4: `Value::list` terminates with the fatal type-mismatch (modelled as
`none`) exactly when some element's declared type differs from the
declared element type, and otherwise fully succeeds with a constructed
value. -/
theorem C4_list_mismatch_iff_fatal :
    ∀ (t : Ty) (vals : List Value),
      (Value.list t vals = none ↔ ∃ ev ∈ vals, Ty.beq ev.type_ t = false)
      ∧ ((∀ ev ∈ vals, Ty.beq ev.type_ t = true) ↔
          ∃ w, Value.list t vals = some w) := by
  intro t vals
  have hnone : Value.list t vals = none ↔ Value.listGo t vals = none := by
    simp [Value.list, Option.map_eq_none']
  constructor
  · rw [hnone, listGo_eq_none_iff]
  · constructor
    · intro h
      rcases hgo : Value.listGo t vals with _ | ps
      · rw [listGo_eq_none_iff] at hgo
        obtain ⟨ev, hev, hf⟩ := hgo
        rw [h ev hev] at hf
        cases hf
      · exact ⟨Value.list_raw t ps, by simp [Value.list, hgo]⟩
    · rintro ⟨w, hw⟩ ev hev
      cases hbe : Ty.beq ev.type_ t with
      | true => rfl
      | false =>
        have hn : Value.list t vals = none := by
          rw [hnone, listGo_eq_none_iff]
          exact ⟨ev, hev, hbe⟩
        rw [hn] at hw
        cases hw

/-- C4 witness: a mixed `String`/`Bool` list is rejected; an all-`String`
list is accepted. -/
theorem C4_list_mismatch_iff_fatal_witness :
    Value.list Ty.string [Value.string "a", Value.bool true] = none
    ∧ ∃ w, Value.list Ty.string [Value.string "a"] = some w := by
  constructor
  · exact (C4_list_mismatch_iff_fatal Ty.string
      [Value.string "a", Value.bool true]).1.mpr
      ⟨Value.bool true, List.mem_cons_of_mem _ (List.mem_cons_self _ _), rfl⟩
  · refine (C4_list_mismatch_iff_fatal Ty.string [Value.string "a"]).2.mp ?_
    intro ev hev
    rcases List.mem_cons.mp hev with rfl | h
    · rfl
    · simp at h

/-- C5: `null(t) == null(t)` holds for every (well-formed) type `t`:
`Null` payloads are equal and `Type` equality is reflexive. -/
theorem C5_null_reflexive :
    ∀ t : Ty, Ty.wf t = true →
      Value.beq (Value.null t) (Value.null t) = true := by
  intro t h
  simp only [Value.beq, Value.null]
  rw [Ty.beq_refl h]
  rfl

/-- C5 witness: a compound `Object` type. -/
theorem C5_null_reflexive_witness :
    Value.beq (Value.null (Ty.object [("a", Ty.string)]))
      (Value.null (Ty.object [("a", Ty.string)])) = true :=
  C5_null_reflexive _ (by decide)

/-- C6: on success, `Value::list` stores exactly the elements' inner
payloads (not the `Value` wrappers) in input order: the stored sequence
has the input's length and its `i`-th entry is the `i`-th input's
payload. -/
theorem C6_list_preserves_order :
    ∀ (t : Ty) (vals : List Value) (w : Value) (ps : List ValueInner),
      Value.list t vals = some w → w.v = ValueInner.sequence ps →
      ps.length = vals.length
      ∧ ∀ (i : Nat) (h1 : i < ps.length) (h2 : i < vals.length),
          ps.get ⟨i, h1⟩ = (vals.get ⟨i, h2⟩).v := by
  intro t vals w ps hw hv
  rcases hgo : Value.listGo t vals with _ | qs
  · rw [Value.list, hgo] at hw
    cases hw
  · rw [Value.list, hgo] at hw
    simp only [Option.map_some'] at hw
    obtain rfl := Option.some.inj hw
    have hqp : qs = ps := by simpa [Value.list_raw] using hv
    subst hqp
    have hq : qs = vals.map Value.v := listGo_eq_some hgo
    subst hq
    refine ⟨by simp, ?_⟩
    intro i h1 h2
    simp

/-- C6 witness: a two-element `Bool` list stores the two payloads in input
order. -/
theorem C6_list_preserves_order_witness :
    ([ValueInner.bool true, ValueInner.bool false] : List ValueInner).length
        = ([Value.bool true, Value.bool false] : List Value).length
    ∧ ([ValueInner.bool true, ValueInner.bool false] : List ValueInner).get
        ⟨0, by decide⟩
        = (([Value.bool true, Value.bool false] : List Value).get ⟨0, by decide⟩).v := by
  have h := C6_list_preserves_order Ty.bool [Value.bool true, Value.bool false]
    (Value.list_raw Ty.bool [ValueInner.bool true, ValueInner.bool false])
    [ValueInner.bool true, ValueInner.bool false] rfl rfl
  exact ⟨h.1, h.2 0 (by decide) (by decide)⟩

/-- C7: payload equality is a total `Bool`-valued function, `false` (not
an error) on every cross-variant pair and on every `Sequence`/`Sequence`
and `Mapping`/`Mapping` pair, and `Value` equality inherits this. -/
theorem C7_equality_total_cross_variant :
    (∀ a b : ValueInner, ValueInner.ctorIdx a ≠ ValueInner.ctorIdx b →
      ValueInner.beq a b = false)
    ∧ (∀ xs ys, ValueInner.beq (ValueInner.sequence xs) (ValueInner.sequence ys) = false)
    ∧ (∀ ms ns, ValueInner.beq (ValueInner.mapping ms) (ValueInner.mapping ns) = false)
    ∧ (∀ a b : Value, ValueInner.ctorIdx a.v ≠ ValueInner.ctorIdx b.v →
        Value.beq a b = false) := by
  have h1 : ∀ a b : ValueInner, ValueInner.ctorIdx a ≠ ValueInner.ctorIdx b →
      ValueInner.beq a b = false := by
    intro a b h
    cases a <;> cases b <;> first | rfl | exact absurd rfl h
  refine ⟨h1, fun xs ys => rfl, fun ms ns => rfl, ?_⟩
  intro a b h
  simp [Value.beq, h1 a.v b.v h]

/-- C7 witness: `string("x") == bool(true)` evaluates to `false`. -/
theorem C7_equality_total_cross_variant_witness :
    Value.beq (Value.string "x") (Value.bool true) = false :=
  C7_equality_total_cross_variant.2.2.2 (Value.string "x") (Value.bool true)
    (by decide)

/-- C8: `Type` equality is structural, recursive and total: concrete
(in)equalities on `List`, recursion equations for the parameterized
variants, `Any` equal only to `Any`, cross-variant inequality, and
`Object` equality invariant under permutation of the (distinct-keyed)
field list. -/
theorem C8_type_structural_equality :
    Ty.beq (Ty.list Ty.string) (Ty.list Ty.string) = true
    ∧ Ty.beq (Ty.list Ty.string) (Ty.list Ty.bool) = false
    ∧ (∀ t : Ty, Ty.beq Ty.any t = true ↔ t = Ty.any)
    ∧ (∀ t : Ty, Ty.beq t Ty.any = true ↔ t = Ty.any)
    ∧ (∀ a b : Ty, Ty.beq (Ty.list a) (Ty.list b) = Ty.beq a b)
    ∧ (∀ a b : Ty, Ty.beq (Ty.map a) (Ty.map b) = Ty.beq a b)
    ∧ (∀ a b : Ty, Ty.beq (Ty.set a) (Ty.set b) = Ty.beq a b)
    ∧ (∀ a b : Ty, Ty.ctorIdx a ≠ Ty.ctorIdx b → Ty.beq a b = false)
    ∧ (∀ as bs : List (String × Ty), nodupKeysB as = true →
        Ty.wfFields as = true → as.Perm bs →
        Ty.beq (Ty.object as) (Ty.object bs) = true) := by
  refine ⟨rfl, rfl, ?_, ?_, fun a b => rfl, fun a b => rfl, fun a b => rfl, ?_, ?_⟩
  · intro t
    cases t <;> simp [Ty.beq]
  · intro t
    cases t <;> simp [Ty.beq]
  · intro a b h
    cases a <;> cases b <;> first | rfl | exact absurd rfl h
  · intro as bs hnd hwf hperm
    simp only [Ty.beq, Bool.and_eq_true]
    have hndbs : nodupKeysB bs = true := by
      rw [nodupKeysB_iff]
      exact ((hperm.map Prod.fst).nodup_iff).mp (nodupKeysB_iff.mp hnd)
    refine ⟨by simp [hperm.length_eq], ?_⟩
    rw [objSub_iff]
    intro p hp
    obtain ⟨k, v⟩ := p
    exact ⟨v, mem_lookupTy hndbs (hperm.subset hp),
      Ty.beq_refl (wfFields_mem hwf hp)⟩

/-- C8 witness: a cross-variant pair, and two field orders of the same
two-field object. -/
theorem C8_type_structural_equality_witness :
    Ty.beq Ty.string Ty.bool = false
    ∧ Ty.beq (Ty.object [("a", Ty.string), ("b", Ty.bool)])
        (Ty.object [("b", Ty.bool), ("a", Ty.string)]) = true := by
  obtain ⟨-, -, -, -, -, -, -, hcross, hperm⟩ := C8_type_structural_equality
  exact ⟨hcross Ty.string Ty.bool (by decide),
    hperm [("a", Ty.string), ("b", Ty.bool)] [("b", Ty.bool), ("a", Ty.string)]
      (by decide) (by decide) (List.Perm.swap ("b", Ty.bool) ("a", Ty.string) [])⟩

/-- C9: `Value::dynamic` returns exactly `unknown(Any)`: the same declared
type `Any` and the same `Unknown` payload — the two constructions are
definitionally the same value. -/
theorem C9_dynamic_is_unknown_any :
    Value.dynamic = Value.unknown Ty.any
    ∧ Value.dynamic.type_ = Ty.any
    ∧ Value.dynamic.v = ValueInner.unknown :=
  ⟨rfl, rfl, rfl⟩

/-- C10: `Value` equality is symmetric (for values whose declared types
are well-formed): the `Unknown`-absorbing rule applies identically on
both sides, so the relation is symmetric although not reflexive. -/
theorem C10_value_beq_symmetric :
    ∀ a b : Value, Ty.wf a.ty = true → Ty.wf b.ty = true →
      Value.beq a b = Value.beq b a := by
  intro a b ha hb
  unfold Value.beq
  rw [Ty.beq_symm ha hb, innerBeq_symm]

/-- C10 witness: symmetry at a concrete cross-variant pair. -/
theorem C10_value_beq_symmetric_witness :
    Value.beq (Value.string "x") (Value.bool true)
      = Value.beq (Value.bool true) (Value.string "x") :=
  C10_value_beq_symmetric (Value.string "x") (Value.bool true)
    (by decide) (by decide)
